import Mathlib

/-!
Verification development for the stt-summarizer pipeline.

The repository is a speech-to-text / summarization system: an API service
(Node) creates tasks and enqueues STT work, a Go worker transcribes audio in
chunks and streams progress over Redis pub/sub, and a Go gateway fans events
out to SSE clients.  This file gives a shallow embedding of the parts of the
code the claims are about (the transcript merge, the STT streaming loop, the
status state machine, the result upsert, the audio chunk walk, the SSE
broadcaster fan-out and the identity middleware) and proves or refutes each
claim against it.
-/

set_option maxHeartbeats 1000000

/-- Go strings are modelled as lists of characters. -/
abbrev GoStr := List Char

/-- Whitespace test used by Go's `strings.TrimSpace` / `strings.Fields`. -/
def isWS (c : Char) : Bool := c.isWhitespace

/-- Model of Go `strings.TrimSpace`: drop whitespace from both ends. -/
def trimStr (s : GoStr) : GoStr :=
  ((s.dropWhile isWS).reverse.dropWhile isWS).reverse

/-- Accumulator scanner behind `fieldsGo`: `acc` holds the characters of the
word currently being read, in reverse. -/
def fieldsAux : GoStr → GoStr → List GoStr
  | [], acc => if acc = [] then [] else [acc.reverse]
  | c :: cs, acc =>
    if isWS c then
      if acc = [] then fieldsAux cs [] else acc.reverse :: fieldsAux cs []
    else fieldsAux cs (c :: acc)

/-- Model of Go `strings.Fields`: split into maximal whitespace-free words. -/
def fieldsGo (s : GoStr) : List GoStr := fieldsAux s []

/-- Model of Go `strings.Join(words, " ")`. -/
def spaceJoin : List GoStr → GoStr
  | [] => []
  | [w] => w
  | w :: rest => w ++ ' ' :: spaceJoin rest

/-- The overlap-search loop of `mergeTranscripts` (worker, part_002):
`for i := 1; i <= maxMatch; i++ { if match(i) { bestMatchLen = i } }`.
It visits `i = 1 .. n` in increasing order and keeps the last matching `i`,
i.e. the greatest matching overlap length (0 when none matches). -/
def bestMatch (p : ℕ → Bool) (n : ℕ) : ℕ :=
  (List.range n).foldl (fun acc j => if p (j + 1) then j + 1 else acc) 0

/-- Shallow embedding of `mergeTranscripts` (worker, part_002 lines 355-398):
trim both inputs, pass empties through, otherwise find the greatest
`k ≤ min 10 |w1| |w2|` with the last `k` words of `t1` equal to the first `k`
words of `t2`, and append `t2`'s remaining words after a single space. -/
def mergeTranscripts (t1 t2 : GoStr) : GoStr :=
  let s1 := trimStr t1
  let s2 := trimStr t2
  if s1 = [] then s2
  else if s2 = [] then s1
  else
    let w1 := fieldsGo s1
    let w2 := fieldsGo s2
    let maxMatch := min 10 (min w1.length w2.length)
    let best := bestMatch (fun i => decide (w1.drop (w1.length - i) = w2.take i)) maxMatch
    let remaining := w2.drop best
    if remaining = [] then s1 else s1 ++ ' ' :: spaceJoin remaining

/-!
## STT streaming loop (worker, part_002 lines 144-188)

`handleSTT` keeps `transcripts` (one slot per chunk, `""` = not yet
transcribed), a `nextToStream` index and a cumulative transcript.  When chunk
`idx` completes, its text is stored; if `idx = nextToStream` the loop advances
through all contiguously completed chunks, merging each into the cumulative
transcript, and a `transcript_update` event carrying the cumulative text is
emitted.  Out-of-order completions store their text and emit nothing.
-/

/-- The inner `for nextToStream < len(chunks) && transcripts[nextToStream] != ""`
advance loop, written with explicit fuel (the loop runs at most
`ts.length` iterations since `next` only increases). -/
def advanceStream (ts : List GoStr) : ℕ → ℕ → GoStr → ℕ × GoStr
  | 0, next, cur => (next, cur)
  | fuel + 1, next, cur =>
    if next < ts.length ∧ ts.getD next [] ≠ [] then
      advanceStream ts fuel (next + 1) (mergeTranscripts cur (ts.getD next []))
    else (next, cur)

/-- State of the in-order streaming logic of `handleSTT`. -/
structure SttStream where
  transcripts : List GoStr
  nextToStream : ℕ
  current : GoStr

/-- One chunk-completion step of the streaming loop: store the chunk text and,
when the completed index is the one being waited for, advance and emit the
cumulative transcript (the `some` component). -/
def chunkComplete (st : SttStream) (idx : ℕ) (text : GoStr) : SttStream × Option GoStr :=
  let ts := st.transcripts.set idx text
  if idx = st.nextToStream then
    let p := advanceStream ts ts.length st.nextToStream st.current
    (⟨ts, p.1, p.2⟩, some p.2)
  else
    (⟨ts, st.nextToStream, st.current⟩, none)

/-- Run the streaming logic over a whole completion schedule, collecting the
emitted `transcript_update` payloads in order. -/
def runStream : SttStream → List (ℕ × GoStr) → SttStream × List GoStr
  | st, [] => (st, [])
  | st, (idx, text) :: rest =>
    let p := chunkComplete st idx text
    let q := runStream p.1 rest
    (q.1, p.2.toList ++ q.2)

/-- Initial streaming state for `n` chunks: no chunk transcribed,
`nextToStream = 0`, empty cumulative transcript. -/
def initStream (n : ℕ) : SttStream := ⟨List.replicate n [], 0, []⟩

/-- String extension: `b` is `a` with something appended. -/
def ExtOf (a b : GoStr) : Prop := ∃ r, b = a ++ r

/-- Predicate packaging that a string has no leading and no trailing
whitespace. -/
def NoEdgeWS (s : GoStr) : Prop :=
  (∀ c ∈ s.head?, isWS c = false) ∧ (∀ c ∈ s.getLast?, isWS c = false)

/-!
## Transcript persistence and SUMMARY dispatch (worker, part_002 lines 212-231)

After transcription `handleSTT` runs two separate operations: first
`db.SaveTranscript` (a single standalone `INSERT .. ON CONFLICT` statement,
part_001 lines 86-94), then `publishTask` which publishes the SUMMARY message
directly to the RabbitMQ `tasks` queue.  There is no shared transaction.  The
execution is modelled by three booleans: whether the save statement succeeds,
whether the process is interrupted between the two operations (crash), and
whether the publish succeeds.
-/

/-- Outcome of the tail of `handleSTT`: which of the two effects happened. -/
structure SttTailResult where
  transcriptSaved : Bool
  summaryEnqueued : Bool
deriving DecidableEq

/-- The save-then-publish tail of `handleSTT`: `SaveTranscript` first (on
error the task is failed and nothing is published); if the worker is
interrupted before `publishTask`, or the publish fails, the transcript is
already persisted but no SUMMARY message exists. -/
def sttSaveAndPublish (saveOk interrupted publishOk : Bool) : SttTailResult :=
  if saveOk = false then ⟨false, false⟩
  else if interrupted = true then ⟨true, false⟩
  else if publishOk = false then ⟨true, false⟩
  else ⟨true, true⟩

/-!
## Progress events published by the worker (part_002)

Event types of the `SSEEvent` structure published on `progress:{taskId}`.
-/

/-- The event types carried by `SSEEvent.Type`. -/
inductive EvType where
  | progress
  | transcriptUpdate
  | summaryChunk
  | completed
  | failed
  | cancelled
deriving DecidableEq

/-- Events published by the start of `handleSTT` (lines 113-120): when the
`pending → processing` transition is refused, `notifyEvent(taskID, "failed",
"Task already cancelled or invalid state")` is published and the handler
returns; on success, `notifyProgress(10, ...)` is published and the handler
continues (the later events are abstracted as `restEvents`). -/
def sttHandlerEvents (transitionOk : Bool) (restEvents : List EvType) : List EvType :=
  if transitionOk then EvType.progress :: restEvents else [EvType.failed]

/-- Events published by `handleError` (lines 337-352): the terminal event is
published unconditionally, whether or not its own `UpdateTaskStatus` call
(whose error is ignored) was refused. -/
def handleErrorEvents (isCancel : Bool) (_transitionOk : Bool) : List EvType :=
  [if isCancel then EvType.cancelled else EvType.failed]

/-- Events published by the completion step of `handleSummary` (lines
253-261): `completed` only if the `processing → completed` transition
succeeded; a refusal only logs and returns. -/
def summaryFinishEvents (transitionOk : Bool) : List EvType :=
  if transitionOk then [EvType.completed] else []

/-!
## Task status writes (worker part_001, api-service index.ts)

Every SQL statement in the repository that writes `tasks.status`, with its
`WHERE` guard.
-/

/-- The five task states of the `tasks.status` column. -/
inductive TaskState where
  | pending
  | processing
  | completed
  | failed
  | cancelled
deriving DecidableEq, Fintype

/-- `db.UpdateTaskStatus` (part_001 lines 30-74): target `processing` is
guarded by `status = 'pending'`; any other target is guarded by
`status = 'processing'`.  Zero rows affected (`none`) means the transition
was refused. -/
def updateTaskStatus (target : TaskState) (cur : TaskState) : Option TaskState :=
  if target = TaskState.processing then
    if cur = TaskState.pending then some target else none
  else
    if cur = TaskState.processing then some target else none

/-- Every status-writing operation in the repository. -/
inductive TaskOp where
  | sttStart
  | workerComplete
  | workerFail
  | workerCancel
  | apiCancel
  | apiResummarize
  | apiUploadFail
deriving DecidableEq, Fintype

/-- Semantics of each status write as a conditional update on the stored
status; `none` = zero rows affected.
* worker ops go through `updateTaskStatus` with targets `processing`,
  `completed`, `failed`, `cancelled` (part_002 lines 115, 256, 346);
* `apiCancel` is `DELETE /tasks/:id` (index.ts line 251): guarded by
  `status IN ('pending', 'processing')`;
* `apiResummarize` is `POST /tasks/:id/summarize` (index.ts line 284):
  guarded by `status = 'completed'`;
* `apiUploadFail` is the upload error handler (index.ts line 199):
  `UPDATE tasks SET status = 'failed' WHERE id = $3` with no status guard. -/
def applyOp : TaskOp → TaskState → Option TaskState
  | .sttStart, s => updateTaskStatus .processing s
  | .workerComplete, s => updateTaskStatus .completed s
  | .workerFail, s => updateTaskStatus .failed s
  | .workerCancel, s => updateTaskStatus .cancelled s
  | .apiCancel, s =>
    if s = .pending ∨ s = .processing then some .cancelled else none
  | .apiResummarize, s =>
    if s = .completed then some .processing else none
  | .apiUploadFail, _ => some .failed

/-- The allowed edges of the task state machine named by the claim. -/
def allowedEdge (a b : TaskState) : Prop :=
  (a = .pending ∧ b = .processing) ∨ (a = .pending ∧ b = .cancelled) ∨
  (a = .processing ∧ b = .completed) ∨ (a = .processing ∧ b = .failed) ∨
  (a = .processing ∧ b = .cancelled) ∨ (a = .completed ∧ b = .processing)

/-- Terminal states of the task state machine. -/
def isTerminal (s : TaskState) : Prop :=
  s = TaskState.completed ∨ s = TaskState.failed ∨ s = TaskState.cancelled

instance (a b : TaskState) : Decidable (allowedEdge a b) := by
  unfold allowedEdge; infer_instance

instance (s : TaskState) : Decidable (isTerminal s) := by
  unfold isTerminal; infer_instance

/-!
## Writes to the `task_results` row (part_001)

A row is `none` when absent; a present row holds the two nullable columns
`(transcript, summary)`.
-/

/-- The `task_results` row for one task. -/
abbrev ResultRow := Option (Option String × Option String)

/-- The `INSERT .. ON CONFLICT` upsert inside `UpdateTaskStatus` (part_001
lines 59-71): each column is overwritten only when the supplied value is
non-empty (`CASE WHEN $2 <> '' THEN $2 ELSE task_results.transcript END`). -/
def upsertResultRow (row : ResultRow) (transcript summary : String) : ResultRow :=
  match row with
  | none => some (some transcript, some summary)
  | some (t0, s0) =>
    some ((if transcript ≠ "" then some transcript else t0),
          (if summary ≠ "" then some summary else s0))

/-- The result write performed by `UpdateTaskStatus`: the upsert runs only
when at least one supplied value is non-empty (part_001 line 59). -/
def updateTaskStatusResult (row : ResultRow) (transcript summary : String) : ResultRow :=
  if transcript ≠ "" ∨ summary ≠ "" then upsertResultRow row transcript summary else row

/-- `db.SaveTranscript` (part_001 lines 86-94): `INSERT (task_id, transcript)
.. ON CONFLICT DO UPDATE SET transcript = $2` — the transcript column is
overwritten unconditionally; the summary column is untouched. -/
def saveTranscript (row : ResultRow) (transcript : String) : ResultRow :=
  match row with
  | none => some (some transcript, none)
  | some (_, s0) => some (some transcript, s0)

/-!
## Worker side effects on Redis (part_002)
-/

/-- An observable worker effect on Redis: a pub/sub publish or a key write
(with its TTL in minutes). -/
inductive WorkerEffect where
  | publishEvent (channel : String) (etype : EvType) (content : String)
  | redisSetKey (key : String) (value : String) (ttlMinutes : ℕ)
deriving DecidableEq

/-- Effects of `notifyTranscriptUpdate` (part_002 lines 315-322): a single
publish of a `transcript_update` event on `progress:{taskId}` via
`PublishProgress`; no Redis key is written. -/
def notifyTranscriptUpdateEffects (taskId content : String) : List WorkerEffect :=
  [WorkerEffect.publishEvent ("progress:" ++ taskId) EvType.transcriptUpdate content]

/-- Effects of one LLM-chunk callback in `handleSummary` (part_002 lines
241-246): append the chunk to the buffer, publish a `summary_chunk` event,
and set `summary:buffer:{taskId}` to the accumulated summary with a
10-minute TTL. -/
def summaryChunkCallbackEffects (taskId buffer chunk : String) : List WorkerEffect :=
  [WorkerEffect.publishEvent ("progress:" ++ taskId) EvType.summaryChunk chunk,
   WorkerEffect.redisSetKey ("summary:buffer:" ++ taskId) (buffer ++ chunk) 10]

/-- Recognizer for Redis key writes. -/
def isRedisSet : WorkerEffect → Bool
  | WorkerEffect.redisSetKey _ _ _ => true
  | _ => false

/-!
## Audio chunk-boundary walk (src/worker/internal/audio/chunker.go lines 69-131)

Durations are modelled as rationals.  `maxChunkDuration` is the default 30 s,
the overlap is 1.5 s, the silence-acceptance window 10 s, the short-remainder
threshold 5 s.
-/

/-- `targetEnd := start + maxChunkDuration`, clamped to the total duration
(lines 70-73). -/
def chunkTargetEnd (d start : ℚ) : ℚ := min (start + 30) d

/-- One step of the silence-candidate scan (lines 82-89): keep a candidate
`s` with `start < s ≤ targetEnd` when it beats the best so far (`none` plays
the role of the `-1.0` sentinel — every candidate is larger). -/
def silStep (start targetEnd : ℚ) : Option ℚ → ℚ → Option ℚ
  | none, s => if start < s ∧ s ≤ targetEnd then some s else none
  | some b, s => if start < s ∧ s ≤ targetEnd then (if b < s then some s else some b) else some b

/-- The silence-candidate scan (lines 79-89): the latest silence point `s`
with `start < s ≤ targetEnd`. -/
def bestSilenceIn (silences : List ℚ) (start targetEnd : ℚ) : Option ℚ :=
  silences.foldl (silStep start targetEnd) none

/-- The acceptance test on the found silence point (lines 91-96): it is used
only when within 10 s of `targetEnd` (clean cut, flag `true`); otherwise the
hard cut at `targetEnd` is taken. -/
def chunkCutWith (targetEnd : ℚ) : Option ℚ → ℚ × Bool
  | some b => if targetEnd - b < 10 then (b, true) else (targetEnd, false)
  | none => (targetEnd, false)

/-- The cut decision (lines 76-97): the silence search only runs strictly
inside the audio (`targetEnd < d`). -/
def chunkCut (d : ℚ) (silences : List ℚ) (start : ℚ) : ℚ × Bool :=
  let targetEnd := chunkTargetEnd d start
  if targetEnd < d then chunkCutWith targetEnd (bestSilenceIn silences start targetEnd)
  else (targetEnd, false)

/-- The short-remainder absorption (lines 99-102): a tail shorter than 5 s is
merged into the current chunk. -/
def chunkActualEnd (d : ℚ) (silences : List ℚ) (start : ℚ) : ℚ :=
  let c := chunkCut d silences start
  if d - c.1 < 5 ∧ c.1 < d then d else c.1

/-- The `usedSilence || actualEnd >= duration` test of line 120 deciding
whether the next chunk starts flush at `actualEnd`. -/
def chunkIsClean (d : ℚ) (silences : List ℚ) (start : ℚ) : Bool :=
  (chunkCut d silences start).2 || decide (chunkActualEnd d silences start ≥ d)

/-- The next start (lines 119-124): flush after a clean (or final) cut,
otherwise 1.5 s of overlap. -/
def chunkNextStart (d : ℚ) (silences : List ℚ) (start : ℚ) : ℚ :=
  if chunkIsClean d silences start then chunkActualEnd d silences start
  else chunkActualEnd d silences start - 3/2

/-- The chunk-boundary walk (lines 69-129), with explicit fuel; each emitted
triple is `(start, end, hardCut)` where `hardCut` records that the 1.5 s
overlap was applied after this chunk. -/
def chunkWalk (fuel : ℕ) (d : ℚ) (silences : List ℚ) (start : ℚ) :
    Option (List (ℚ × ℚ × Bool)) :=
  match fuel with
  | 0 => if start < d then none else some []
  | fuel' + 1 =>
    if start < d then
      match chunkWalk fuel' d silences (chunkNextStart d silences start) with
      | none => none
      | some rest =>
        some ((start, chunkActualEnd d silences start, !chunkIsClean d silences start) :: rest)
    else some []

/-!
## SSE broadcaster fan-out (src/gateway/internal/sse/broadcaster.go lines 29-66)

Each registered listener is a Go channel of capacity 16, modelled by its
buffered payload list.  A send is non-blocking: the payload is appended when
the buffer has room and dropped (for that listener only) otherwise.
-/

/-- One fan-out step of `Broadcaster.Run`: the non-blocking send to every
listener of the task (lines 55-62). -/
def fanOut (payload : String) (buffers : List (List String)) : List (List String) :=
  buffers.map (fun b => if b.length < 16 then b ++ [payload] else b)

/-- `strings.TrimPrefix(msg.Channel, "progress:")` (line 50). -/
def taskIdOfChannel (channel : String) : String :=
  if channel.startsWith "progress:" then channel.drop 9 else channel

/-- A whole inbound message handled by `Broadcaster.Run`: only the listener
set of the extracted task id is touched. -/
def broadcastStep (registry : String → List (List String)) (channel payload : String) :
    String → List (List String) :=
  fun id => if id = taskIdOfChannel channel then fanOut payload (registry id) else registry id

/-!
## Gateway identity middleware (src/gateway/internal/middleware/cookie.go lines 19-42)

The fresh UUID generated when no cookie is present is passed in explicitly,
determinizing `uuid.New()`.
-/

/-- `r.Header.Set(key, value)`: headers as a partial map. -/
def setHeader (hs : String → Option String) (k v : String) : String → Option String :=
  fun k' => if k' = k then some v else hs k'

/-- The identity computed by `UserIdentity` (lines 21-36): the `userId`
cookie value when present and non-empty, otherwise the freshly generated
UUID. -/
def resolveUserId (cookie : Option String) (freshUuid : String) : String :=
  match cookie with
  | none => freshUuid
  | some v => if v = "" then freshUuid else v

/-- The header rewrite of `UserIdentity` (line 38): the forwarded request's
headers after `r.Header.Set("X-User-Id", userID)`. -/
def userIdentity (cookie : Option String) (freshUuid : String)
    (hs : String → Option String) : String → Option String :=
  setHeader hs "X-User-Id" (resolveUserId cookie freshUuid)

/-!
## Whitespace and trimming lemmas
-/

theorem dropWhile_head_false (p : Char → Bool) :
    ∀ (s : GoStr) (c : Char) (t : GoStr), s.dropWhile p = c :: t → p c = false := by
  intro s
  induction s with
  | nil => intro c t h; simp [List.dropWhile] at h
  | cons a s ih =>
    intro c t h
    by_cases ha : p a
    · rw [List.dropWhile_cons_of_pos ha] at h
      exact ih c t h
    · rw [List.dropWhile_cons_of_neg ha] at h
      cases h
      simpa using ha

theorem dropWhile_eq_self_of_head (p : Char → Bool) :
    ∀ (s : GoStr), (∀ c ∈ s.head?, p c = false) → s.dropWhile p = s := by
  intro s h
  cases s with
  | nil => rfl
  | cons a t =>
    have ha : p a = false := h a (by simp)
    rw [List.dropWhile_cons_of_neg (by simp [ha])]

theorem trimStr_eq_of_noEdge (s : GoStr) (h : NoEdgeWS s) : trimStr s = s := by
  unfold trimStr
  rw [dropWhile_eq_self_of_head isWS s h.1]
  rw [dropWhile_eq_self_of_head isWS s.reverse
    (by intro c hc; rw [List.head?_reverse] at hc; exact h.2 c hc)]
  exact s.reverse_reverse

theorem getLast?_dropWhile (p : Char → Bool) (l : GoStr) (h : l.dropWhile p ≠ []) :
    (l.dropWhile p).getLast? = l.getLast? := by
  conv_rhs => rw [← List.takeWhile_append_dropWhile (p := p) (l := l)]
  exact (List.getLast?_append_of_ne_nil _ h).symm

theorem noEdgeWS_trimStr (s : GoStr) : NoEdgeWS (trimStr s) := by
  constructor
  · intro c hc
    unfold trimStr at hc
    rw [List.head?_reverse] at hc
    have hne : (s.dropWhile isWS).reverse.dropWhile isWS ≠ [] := by
      intro h0; rw [h0] at hc; simp at hc
    rw [getLast?_dropWhile isWS _ hne] at hc
    rw [List.getLast?_reverse] at hc
    cases hu : s.dropWhile isWS with
    | nil => rw [hu] at hc; simp at hc
    | cons a t =>
      rw [hu] at hc
      simp at hc
      subst hc
      exact dropWhile_head_false isWS s a t hu
  · intro c hc
    unfold trimStr at hc
    rw [List.getLast?_reverse] at hc
    cases hv : (s.dropWhile isWS).reverse.dropWhile isWS with
    | nil => rw [hv] at hc; simp at hc
    | cons a t =>
      rw [hv] at hc
      simp at hc
      subst hc
      exact dropWhile_head_false isWS _ a t hv

theorem trimStr_idem (s : GoStr) : trimStr (trimStr s) = trimStr s :=
  trimStr_eq_of_noEdge _ (noEdgeWS_trimStr s)

theorem mem_of_getLast?_eq (l : GoStr) (c : Char) (h : l.getLast? = some c) : c ∈ l := by
  obtain ⟨hne, hx⟩ := List.mem_getLast?_eq_getLast (by simpa using h)
  subst hx
  exact List.getLast_mem hne

/-!
## Word tokens: `fieldsGo` and `spaceJoin` lemmas
-/

/-- Every token produced by the `fieldsAux` scan is a nonempty word free of
whitespace (provided the accumulator only holds non-whitespace characters). -/
theorem fieldsAux_tokens :
    ∀ (s : GoStr) (acc : GoStr), (∀ c ∈ acc, isWS c = false) →
      ∀ w ∈ fieldsAux s acc, w ≠ [] ∧ ∀ c ∈ w, isWS c = false := by
  intro s
  induction s with
  | nil =>
    intro acc hacc w hw
    unfold fieldsAux at hw
    by_cases h : acc = []
    · simp [h] at hw
    · rw [if_neg h] at hw
      simp only [List.mem_singleton] at hw
      subst hw
      refine ⟨by simpa using h, ?_⟩
      intro c hc
      exact hacc c (by simpa using hc)
  | cons a s ih =>
    intro acc hacc w hw
    unfold fieldsAux at hw
    by_cases ha : isWS a
    · rw [if_pos ha] at hw
      by_cases h : acc = []
      · rw [if_pos h] at hw
        exact ih [] (by simp) w hw
      · rw [if_neg h] at hw
        rcases List.mem_cons.mp hw with h1 | h2
        · subst h1
          refine ⟨by simpa using h, ?_⟩
          intro c hc
          exact hacc c (by simpa using hc)
        · exact ih [] (by simp) w h2
    · rw [if_neg ha] at hw
      refine ih (a :: acc) ?_ w hw
      intro c hc
      rcases List.mem_cons.mp hc with h1 | h2
      · subst h1; simpa using ha
      · exact hacc c h2

theorem fieldsGo_tokens (s : GoStr) :
    ∀ w ∈ fieldsGo s, w ≠ [] ∧ ∀ c ∈ w, isWS c = false :=
  fieldsAux_tokens s [] (by simp)

theorem spaceJoin_ne_nil :
    ∀ (l : List GoStr), (∀ w ∈ l, w ≠ []) → l ≠ [] → spaceJoin l ≠ []
  | [], _, hl => absurd rfl hl
  | [w], h, _ => by simpa [spaceJoin] using h w (by simp)
  | _ :: _ :: _, h, _ => by
    simp only [spaceJoin, ne_eq, List.append_eq_nil]
    intro hcontra
    exact absurd hcontra.2 (by simp)

theorem spaceJoin_head? (w : GoStr) (rest : List GoStr) (hw : w ≠ []) :
    (spaceJoin (w :: rest)).head? = w.head? := by
  cases rest with
  | nil => rfl
  | cons v rest =>
    cases w with
    | nil => exact absurd rfl hw
    | cons a t => rfl

theorem spaceJoin_getLast? :
    ∀ (l : List GoStr), (∀ w ∈ l, w ≠ []) → l ≠ [] →
      ∃ w ∈ l, (spaceJoin l).getLast? = w.getLast?
  | [], _, hl => absurd rfl hl
  | [w], _, _ => ⟨w, by simp, rfl⟩
  | w :: v :: rest, h, _ => by
    have hrec := spaceJoin_getLast? (v :: rest) (fun u hu => h u (List.mem_cons_of_mem _ hu))
      (by simp)
    obtain ⟨u, humem, hulast⟩ := hrec
    refine ⟨u, List.mem_cons_of_mem _ humem, ?_⟩
    have hsj : spaceJoin (v :: rest) ≠ [] :=
      spaceJoin_ne_nil (v :: rest) (fun u hu => h u (List.mem_cons_of_mem _ hu)) (by simp)
    calc (spaceJoin (w :: v :: rest)).getLast?
        = (w ++ ' ' :: spaceJoin (v :: rest)).getLast? := rfl
      _ = (' ' :: spaceJoin (v :: rest)).getLast? :=
          List.getLast?_append_of_ne_nil _ (by simp)
      _ = ([' '] ++ spaceJoin (v :: rest)).getLast? := rfl
      _ = (spaceJoin (v :: rest)).getLast? := List.getLast?_append_of_ne_nil _ hsj
      _ = u.getLast? := hulast

/-!
## Lemmas about `mergeTranscripts`
-/

theorem trimStr_append_tokens (a : GoStr) (ha : NoEdgeWS a) (hne : a ≠ [])
    (l : List GoStr) (hl : l ≠ []) (htok : ∀ w ∈ l, w ≠ [] ∧ ∀ c ∈ w, isWS c = false) :
    trimStr (a ++ ' ' :: spaceJoin l) = a ++ ' ' :: spaceJoin l := by
  apply trimStr_eq_of_noEdge
  constructor
  · intro c hc
    cases a with
    | nil => exact absurd rfl hne
    | cons x t =>
      refine ha.1 c ?_
      simpa using hc
  · intro c hc
    rw [List.getLast?_append_of_ne_nil _ (by simp)] at hc
    have hsj : spaceJoin l ≠ [] := spaceJoin_ne_nil l (fun w hw => (htok w hw).1) hl
    rw [show (' ' :: spaceJoin l) = [' '] ++ spaceJoin l from rfl,
      List.getLast?_append_of_ne_nil _ hsj] at hc
    obtain ⟨w, hwmem, hwlast⟩ := spaceJoin_getLast? l (fun w hw => (htok w hw).1) hl
    rw [hwlast] at hc
    exact (htok w hwmem).2 c (mem_of_getLast?_eq w c hc)

/-- The output of the merge always extends the trimmed left argument. -/
theorem mergeTranscripts_ext (x y : GoStr) : ∃ r, mergeTranscripts x y = trimStr x ++ r := by
  simp only [mergeTranscripts]
  split_ifs with h1 h2 h3
  · exact ⟨trimStr y, by rw [h1]; rfl⟩
  · exact ⟨[], by simp⟩
  · exact ⟨[], by simp⟩
  · exact ⟨_, rfl⟩

/-- The output of the merge carries no leading or trailing whitespace. -/
theorem mergeTranscripts_trimmed (x y : GoStr) :
    trimStr (mergeTranscripts x y) = mergeTranscripts x y := by
  simp only [mergeTranscripts]
  split_ifs with h1 h2 h3
  · exact trimStr_idem y
  · exact trimStr_idem x
  · exact trimStr_idem x
  · exact trimStr_append_tokens _ (noEdgeWS_trimStr x) h1 _ h3
      (fun w hw => fieldsGo_tokens (trimStr y) w (List.mem_of_mem_drop hw))

/-!
## Lemmas about the overlap-search loop `bestMatch`
-/

theorem bestMatch_succ (p : ℕ → Bool) (n : ℕ) :
    bestMatch p (n + 1) = if p (n + 1) then n + 1 else bestMatch p n := by
  unfold bestMatch
  rw [List.range_succ, List.foldl_append]
  simp

theorem bestMatch_le (p : ℕ → Bool) : ∀ n, bestMatch p n ≤ n := by
  intro n
  induction n with
  | zero => simp [bestMatch]
  | succ n ih =>
    rw [bestMatch_succ]
    split_ifs
    · exact le_refl _
    · exact le_trans ih (Nat.le_succ n)

theorem bestMatch_pos (p : ℕ → Bool) : ∀ n, bestMatch p n ≠ 0 → p (bestMatch p n) = true := by
  intro n
  induction n with
  | zero => intro h; exact absurd (by simp [bestMatch]) h
  | succ n ih =>
    intro h
    rw [bestMatch_succ] at h ⊢
    by_cases hp : p (n + 1)
    · simp [hp]
    · rw [if_neg hp] at h ⊢
      exact ih h

theorem bestMatch_greatest (p : ℕ → Bool) :
    ∀ n j, 1 ≤ j → j ≤ n → p j = true → j ≤ bestMatch p n := by
  intro n
  induction n with
  | zero => intro j h1 h2 _; omega
  | succ n ih =>
    intro j h1 h2 hp
    rw [bestMatch_succ]
    by_cases hp' : p (n + 1)
    · rw [if_pos hp']; exact h2
    · rw [if_neg hp']
      rcases Nat.lt_or_ge j (n + 1) with hlt | hge
      · exact ih j h1 (by omega) hp
      · have hj : j = n + 1 := by omega
        rw [hj] at hp
        exact absurd hp hp'

/-!
## Lemmas about the STT streaming loop
-/

/-- The advance loop only ever extends the cumulative transcript (and keeps
it free of edge whitespace). -/
theorem advanceStream_ext (ts : List GoStr) :
    ∀ (fuel next : ℕ) (cur : GoStr), trimStr cur = cur →
      (∃ r, (advanceStream ts fuel next cur).2 = cur ++ r) ∧
        trimStr (advanceStream ts fuel next cur).2 = (advanceStream ts fuel next cur).2 := by
  intro fuel
  induction fuel with
  | zero =>
    intro next cur hcur
    exact ⟨⟨[], by simp [advanceStream]⟩, by simpa [advanceStream] using hcur⟩
  | succ fuel ih =>
    intro next cur hcur
    unfold advanceStream
    split_ifs with h
    · have hmt := mergeTranscripts_trimmed cur (ts.getD next [])
      obtain ⟨r, hr⟩ := mergeTranscripts_ext cur (ts.getD next [])
      rw [hcur] at hr
      obtain ⟨⟨r2, hr2⟩, htr⟩ := ih (next + 1) (mergeTranscripts cur (ts.getD next [])) hmt
      exact ⟨⟨r ++ r2, by rw [hr2, hr, List.append_assoc]⟩, htr⟩
    · exact ⟨⟨[], by simp⟩, hcur⟩

/-- Along any completion schedule the cumulative transcript snapshots form an
extension chain, starting from the current state. -/
theorem runStream_chain :
    ∀ (sched : List (ℕ × GoStr)) (st : SttStream), trimStr st.current = st.current →
      List.Chain' ExtOf (st.current :: (runStream st sched).2) := by
  intro sched
  induction sched with
  | nil => intro st _; simp [runStream]
  | cons step rest ih =>
    intro st hst
    obtain ⟨idx, text⟩ := step
    simp only [runStream, chunkComplete]
    split_ifs with hidx
    · obtain ⟨⟨r, hr⟩, htr⟩ := advanceStream_ext (st.transcripts.set idx text)
        (st.transcripts.set idx text).length st.nextToStream st.current hst
      simp only [Option.toList_some, List.singleton_append]
      rw [List.chain'_cons']
      constructor
      · intro y hy
        simp only [List.head?_cons, Option.mem_def, Option.some.injEq] at hy
        subst hy
        exact ⟨r, hr⟩
      · exact ih ⟨st.transcripts.set idx text,
          (advanceStream (st.transcripts.set idx text) (st.transcripts.set idx text).length
            st.nextToStream st.current).1,
          (advanceStream (st.transcripts.set idx text) (st.transcripts.set idx text).length
            st.nextToStream st.current).2⟩ htr
    · simp only [Option.toList_none, List.nil_append]
      exact ih ⟨st.transcripts.set idx text, st.nextToStream, st.current⟩ hst

/-!
## Lemmas about the chunk-boundary walk
-/

theorem silStep_sound (start targetEnd : ℚ) (acc : Option ℚ) (s y : ℚ)
    (h : silStep start targetEnd acc s = some y) :
    (start < y ∧ y ≤ targetEnd) ∨ acc = some y := by
  cases acc with
  | none =>
    simp only [silStep] at h
    split_ifs at h with hcond
    cases h
    exact Or.inl hcond
  | some b =>
    simp only [silStep] at h
    split_ifs at h with hcond hlt
    · cases h; exact Or.inl hcond
    · cases h; exact Or.inr rfl
    · cases h; exact Or.inr rfl

theorem bestSilenceIn_aux (start targetEnd : ℚ) :
    ∀ (l : List ℚ) (acc : Option ℚ),
      (∀ y, acc = some y → start < y ∧ y ≤ targetEnd) →
      ∀ b, l.foldl (silStep start targetEnd) acc = some b → start < b ∧ b ≤ targetEnd := by
  intro l
  induction l with
  | nil => intro acc hacc b hb; exact hacc b hb
  | cons s l ih =>
    intro acc hacc b hb
    simp only [List.foldl_cons] at hb
    refine ih _ ?_ b hb
    intro y hy
    rcases silStep_sound start targetEnd acc s y hy with h | h
    · exact h
    · exact hacc y h

/-- A found silence candidate lies strictly inside `(start, targetEnd]`. -/
theorem bestSilenceIn_mem (silences : List ℚ) (start targetEnd b : ℚ)
    (h : bestSilenceIn silences start targetEnd = some b) :
    start < b ∧ b ≤ targetEnd := by
  unfold bestSilenceIn at h
  exact bestSilenceIn_aux start targetEnd silences none (by intro y hy; cases hy) b h

theorem chunkTargetEnd_le_d (d start : ℚ) : chunkTargetEnd d start ≤ d := by
  unfold chunkTargetEnd; exact min_le_right _ _

theorem chunkTargetEnd_bounds (d start : ℚ) (h : start < d) :
    start < chunkTargetEnd d start ∧ chunkTargetEnd d start ≤ d := by
  unfold chunkTargetEnd
  exact ⟨lt_min (by linarith) h, min_le_right _ _⟩

theorem chunkTargetEnd_eq_of_lt (d start : ℚ) (h : chunkTargetEnd d start < d) :
    chunkTargetEnd d start = start + 30 := by
  unfold chunkTargetEnd at *
  rcases le_total (start + 30) d with hle | hge
  · exact min_eq_left hle
  · rw [min_eq_right hge] at h
    exact absurd h (lt_irrefl d)

/-- Either the hard cut at `targetEnd` is taken, or an accepted silence point
within 10 s of `targetEnd` strictly between `start` and `targetEnd`. -/
theorem chunkCut_eq (d : ℚ) (sil : List ℚ) (start : ℚ) :
    chunkCut d sil start = (chunkTargetEnd d start, false) ∨
    ((chunkCut d sil start).2 = true ∧ chunkTargetEnd d start < d ∧
      start < (chunkCut d sil start).1 ∧
      (chunkCut d sil start).1 ≤ chunkTargetEnd d start ∧
      chunkTargetEnd d start - (chunkCut d sil start).1 < 10) := by
  simp only [chunkCut]
  split_ifs with htd
  · cases hbs : bestSilenceIn sil start (chunkTargetEnd d start) with
    | none => left; rfl
    | some b =>
      obtain ⟨hb1, hb2⟩ := bestSilenceIn_mem sil start _ b hbs
      simp only [chunkCutWith]
      split_ifs with h10
      · right; exact ⟨rfl, htd, hb1, hb2, h10⟩
      · left; rfl
  · left; rfl

theorem chunkActualEnd_facts (d : ℚ) (sil : List ℚ) (start : ℚ) (h : start < d) :
    start < chunkActualEnd d sil start ∧ chunkActualEnd d sil start ≤ d ∧
      (chunkActualEnd d sil start = d ∨ chunkActualEnd d sil start ≤ d - 5) := by
  have hcut : start < (chunkCut d sil start).1 ∧ (chunkCut d sil start).1 ≤ d := by
    rcases chunkCut_eq d sil start with hc | ⟨_, _, h1, h2, _⟩
    · rw [hc]
      exact ⟨(chunkTargetEnd_bounds d start h).1, chunkTargetEnd_le_d d start⟩
    · exact ⟨h1, le_trans h2 (chunkTargetEnd_le_d d start)⟩
  simp only [chunkActualEnd]
  split_ifs with habs
  · exact ⟨h, le_refl d, Or.inl rfl⟩
  · refine ⟨hcut.1, hcut.2, ?_⟩
    by_cases hcd : (chunkCut d sil start).1 < d
    · right
      have h5 : ¬ (d - (chunkCut d sil start).1 < 5) := fun hlt => habs ⟨hlt, hcd⟩
      linarith
    · left
      linarith [hcut.2, not_lt.mp hcd]

theorem chunkNextStart_facts (d : ℚ) (sil : List ℚ) (start : ℚ) (h : start < d) :
    chunkNextStart d sil start ≤ chunkActualEnd d sil start ∧
    (chunkNextStart d sil start = d ∨
      (chunkNextStart d sil start < d ∧ start + 20 < chunkNextStart d sil start)) ∧
    (chunkIsClean d sil start = false →
      chunkNextStart d sil start = chunkActualEnd d sil start - 3/2 ∧
        chunkActualEnd d sil start < d) ∧
    (chunkIsClean d sil start = true →
      chunkNextStart d sil start = chunkActualEnd d sil start) := by
  obtain ⟨haE1, haE2, haE3⟩ := chunkActualEnd_facts d sil start h
  cases hclean : chunkIsClean d sil start with
  | false =>
    have hnsd : chunkNextStart d sil start = chunkActualEnd d sil start - 3/2 := by
      unfold chunkNextStart
      rw [hclean]
      simp
    have hparts : (chunkCut d sil start).2 = false ∧
        ¬ d ≤ chunkActualEnd d sil start := by
      unfold chunkIsClean at hclean
      simpa using hclean
    have haEd : chunkActualEnd d sil start < d := not_le.mp hparts.2
    have haEc : chunkActualEnd d sil start = (chunkCut d sil start).1 := by
      simp only [chunkActualEnd] at haEd ⊢
      split_ifs at haEd ⊢ with habs
      · exact absurd haEd (lt_irrefl d)
      · rfl
    have hcut1 : (chunkCut d sil start).1 = chunkTargetEnd d start := by
      rcases chunkCut_eq d sil start with hc | ⟨ht, _⟩
      · rw [hc]
      · rw [hparts.1] at ht
        exact absurd ht (by simp)
    have htgt : chunkTargetEnd d start = start + 30 := by
      apply chunkTargetEnd_eq_of_lt
      rw [← hcut1, ← haEc]
      exact haEd
    have h5 : chunkActualEnd d sil start ≤ d - 5 := by
      rcases haE3 with h' | h'
      · exact absurd h' (by linarith)
      · exact h'
    refine ⟨by rw [hnsd]; linarith, ?_, fun _ => ⟨hnsd, haEd⟩,
      fun hc => absurd hc (by simp [hclean])⟩
    right
    constructor
    · rw [hnsd, haEc, hcut1, htgt]
      rw [haEc, hcut1, htgt] at h5
      linarith
    · rw [hnsd, haEc, hcut1, htgt]
      linarith
  | true =>
    have hnsd : chunkNextStart d sil start = chunkActualEnd d sil start := by
      unfold chunkNextStart
      rw [hclean]
      simp
    refine ⟨le_of_eq hnsd, ?_, fun hc => absurd hc (by simp [hclean]), fun _ => hnsd⟩
    by_cases haEd : chunkActualEnd d sil start = d
    · left
      rw [hnsd, haEd]
    · right
      have haElt : chunkActualEnd d sil start < d := lt_of_le_of_ne haE2 haEd
      have hclean' : (chunkCut d sil start).2 = true ∨ d ≤ chunkActualEnd d sil start := by
        unfold chunkIsClean at hclean
        simpa using hclean
      have hcut2 : (chunkCut d sil start).2 = true := by
        rcases hclean' with hc | hc
        · exact hc
        · exact absurd hc (not_le.mpr haElt)
      rcases chunkCut_eq d sil start with hc | ⟨_, htd, hb1, hb2, h10⟩
      · rw [hc] at hcut2
        exact absurd hcut2 (by simp)
      · have haEc : chunkActualEnd d sil start = (chunkCut d sil start).1 := by
          simp only [chunkActualEnd] at haElt ⊢
          split_ifs at haElt ⊢ with habs
          · exact absurd haElt (lt_irrefl d)
          · rfl
        have htgt : chunkTargetEnd d start = start + 30 :=
          chunkTargetEnd_eq_of_lt d start htd
        constructor
        · rw [hnsd]
          exact haElt
        · rw [hnsd, haEc]
          rw [htgt] at h10
          linarith

theorem chunkWalk_done (fuel : ℕ) (d : ℚ) (sil : List ℚ) (start : ℚ) (h : ¬ start < d) :
    chunkWalk fuel d sil start = some [] := by
  cases fuel with
  | zero => simp [chunkWalk, h]
  | succ fuel => simp [chunkWalk, h]

theorem getLast?_cons_ne {α : Type} (a : α) (l : List α) (h : l ≠ []) :
    (a :: l).getLast? = l.getLast? :=
  List.getLast?_append_of_ne_nil [a] h

/-- Full specification of the chunk walk at every start point: it succeeds
with enough fuel, the emitted ranges begin at `start`, end at `d`, are
nonempty and cover `[start, d)`, no range ends inside `(d-5, d)`, and each
successor starts flush after a clean cut and 1.5 s early after a hard cut. -/
theorem chunkWalk_spec (d : ℚ) (sil : List ℚ) :
    ∀ (fuel : ℕ) (start : ℚ), 0 ≤ start → start < d → d - start ≤ 20 * fuel →
      ∃ ranges, chunkWalk fuel d sil start = some ranges ∧
        ranges ≠ [] ∧
        (ranges.head?.map fun r => r.1) = some start ∧
        (ranges.getLast?.map fun r => r.2.1) = some d ∧
        (∀ r ∈ ranges, r.1 < r.2.1 ∧ r.2.1 ≤ d ∧ (r.2.1 = d ∨ r.2.1 ≤ d - 5)) ∧
        (∀ x : ℚ, start ≤ x → x < d → ∃ r ∈ ranges, r.1 ≤ x ∧ x < r.2.1) ∧
        List.Chain' (fun r r' : ℚ × ℚ × Bool => r'.1 = if r.2.2 then r.2.1 - 3/2 else r.2.1)
          ranges := by
  intro fuel
  induction fuel with
  | zero =>
    intro start _ hlt hfuel
    exfalso
    simp only [Nat.cast_zero, mul_zero] at hfuel
    linarith
  | succ fuel ih =>
    intro start h0 hlt hfuel
    obtain ⟨haE1, haE2, haE3⟩ := chunkActualEnd_facts d sil start hlt
    obtain ⟨hns_le, hprog, hhard, hclean⟩ := chunkNextStart_facts d sil start hlt
    rcases hprog with hnd | ⟨hnlt, hngt⟩
    · have hwalk0 : chunkWalk fuel d sil (chunkNextStart d sil start) = some [] :=
        chunkWalk_done fuel d sil _ (by rw [hnd]; exact lt_irrefl d)
      have hcleanT : chunkIsClean d sil start = true := by
        cases hc : chunkIsClean d sil start with
        | false =>
          obtain ⟨heq, hlt2⟩ := hhard hc
          rw [heq] at hnd
          exact absurd hnd (by linarith)
        | true => rfl
      have haEd : chunkActualEnd d sil start = d := by
        have heq := hclean hcleanT
        rw [← heq, hnd]
      refine ⟨[(start, chunkActualEnd d sil start, !chunkIsClean d sil start)], ?_, by simp,
        by simp, by simp [haEd], ?_, ?_, by simp⟩
      · unfold chunkWalk
        rw [if_pos hlt, hwalk0]
      · intro r hr
        simp only [List.mem_singleton] at hr
        subst hr
        exact ⟨haE1, haE2, haE3⟩
      · intro x hx1 hx2
        refine ⟨(start, chunkActualEnd d sil start, !chunkIsClean d sil start), by simp, hx1, ?_⟩
        rw [haEd]
        exact hx2
    · have h0' : 0 ≤ chunkNextStart d sil start := by linarith
      have hfuel' : d - chunkNextStart d sil start ≤ 20 * fuel := by
        push_cast at hfuel ⊢
        linarith
      obtain ⟨rest, hwalk, hne, hhead, hlast, hbounds, hcover, hchain⟩ :=
        ih (chunkNextStart d sil start) h0' hnlt hfuel'
      refine ⟨(start, chunkActualEnd d sil start, !chunkIsClean d sil start) :: rest, ?_, by simp,
        by simp, ?_, ?_, ?_, ?_⟩
      · unfold chunkWalk
        rw [if_pos hlt, hwalk]
      · rw [getLast?_cons_ne _ _ hne]
        exact hlast
      · intro r hr
        rcases List.mem_cons.mp hr with h1 | h2
        · subst h1
          exact ⟨haE1, haE2, haE3⟩
        · exact hbounds r h2
      · intro x hx1 hx2
        by_cases hxa : x < chunkActualEnd d sil start
        · exact ⟨(start, chunkActualEnd d sil start, !chunkIsClean d sil start), by simp, hx1, hxa⟩
        · obtain ⟨r, hrmem, hr1, hr2⟩ :=
            hcover x (le_trans hns_le (not_lt.mp hxa)) hx2
          exact ⟨r, List.mem_cons_of_mem _ hrmem, hr1, hr2⟩
      · rw [List.chain'_cons']
        refine ⟨?_, hchain⟩
        intro y hy
        have hyfst : y.1 = chunkNextStart d sil start := by
          cases hrest : rest with
          | nil => rw [hrest] at hy; simp at hy
          | cons a l =>
            rw [hrest] at hy hhead
            simp only [List.head?_cons, Option.mem_def, Option.some.injEq] at hy
            subst hy
            simp only [List.head?_cons, Option.map_some] at hhead
            injection hhead
        rw [hyfst]
        cases hc : chunkIsClean d sil start with
        | false =>
          simp only [Bool.not_false, if_true]
          exact (hhard hc).1
        | true =>
          simp only [Bool.not_true, if_false]
          exact hclean hc

/-!
## Claim C1 — transcript persistence vs. SUMMARY dispatch
-/

/-- Claim C1, counterexample: the claim asserts that persisting the
transcript and enqueueing the SUMMARY job are atomic — the transcript is
persisted iff a SUMMARY dispatch will exist.  In the code they are two
separate operations (`db.SaveTranscript`, then a direct `publishTask` to
RabbitMQ); the execution that is interrupted between them reaches the state
"transcript saved, SUMMARY not enqueued", refuting the iff. -/
theorem stt_save_publish_atomicity_fails :
    (sttSaveAndPublish true true true).transcriptSaved = true ∧
    (sttSaveAndPublish true true true).summaryEnqueued = false := by
  decide

/-- Claim C1, amended: only one direction of the claimed equivalence holds.
Since `handleSTT` publishes the SUMMARY message only after `SaveTranscript`
succeeded, a SUMMARY dispatch implies the transcript is persisted; the
converse fails (see the counterexample). -/
theorem stt_summary_enqueued_implies_saved (saveOk interrupted publishOk : Bool)
    (h : (sttSaveAndPublish saveOk interrupted publishOk).summaryEnqueued = true) :
    (sttSaveAndPublish saveOk interrupted publishOk).transcriptSaved = true := by
  revert h
  cases saveOk <;> cases interrupted <;> cases publishOk <;> decide

/-- Witness for `stt_summary_enqueued_implies_saved` at the clean execution. -/
theorem stt_summary_enqueued_implies_saved_witness :
    (sttSaveAndPublish true false true).summaryEnqueued = true ∧
    (sttSaveAndPublish true false true).transcriptSaved = true :=
  ⟨by decide, stt_summary_enqueued_implies_saved true false true (by decide)⟩

/-!
## Claim C2 — behaviour on refused conditional transitions
-/

/-- Claim C2, counterexample: the claim asserts that a worker whose
conditional transition is refused abandons the delivery quietly, publishing
no event; in particular a refused initial `pending → processing` transition
emits nothing.  The code path (part_002 lines 115-119) publishes a `failed`
event on that refusal. -/
theorem stt_refusal_emits_failed_event :
    sttHandlerEvents false [] = [EvType.failed] ∧ sttHandlerEvents false [] ≠ [] := by
  decide

/-- Claim C2, amended: on a refused initial transition the STT handler stops
but publishes exactly one `failed` event (and no progress event); the
SUMMARY handler's refused completion transition is indeed quiet; and
`handleError` publishes its terminal event regardless of whether its own
conditional transition was refused. -/
theorem worker_refusal_event_behavior :
    (∀ restEvents, sttHandlerEvents false restEvents = [EvType.failed] ∧
      EvType.progress ∉ sttHandlerEvents false restEvents) ∧
    summaryFinishEvents false = [] ∧
    (∀ isCancel transitionOk, handleErrorEvents isCancel transitionOk =
      [if isCancel then EvType.cancelled else EvType.failed]) := by
  refine ⟨fun restEvents => ⟨rfl, by simp [sttHandlerEvents]⟩, rfl, fun isCancel ok => rfl⟩

/-- Witness for `worker_refusal_event_behavior`: a cancellation with a
refused transition still publishes the `cancelled` event. -/
theorem worker_refusal_event_behavior_witness :
    handleErrorEvents true false = [EvType.cancelled] :=
  worker_refusal_event_behavior.2.2 true false

/-!
## Claim C3 — status writes and the state machine
-/

/-- Claim C3, counterexample: the claim asserts every status write is
guarded so only the allowed state-machine edges occur.  The upload error
handler (index.ts line 199) writes `status = 'failed'` guarded only by the
task id, so it moves a `cancelled` task to `failed` — an edge outside the
state machine, also violating terminal monotonicity. -/
theorem upload_error_handler_breaks_state_machine :
    applyOp TaskOp.apiUploadFail TaskState.cancelled = some TaskState.failed ∧
    ¬ allowedEdge TaskState.cancelled TaskState.failed := by
  decide

/-- Claim C3, amended: every status write except the upload error handler is
a guarded conditional update and follows only the allowed edges; for those
ops a terminal state can only change through the `completed → processing`
resummarize path; the upload error handler instead sets `failed`
unconditionally from every state. -/
theorem guarded_ops_follow_allowed_edges :
    (∀ op s s', op ≠ TaskOp.apiUploadFail → applyOp op s = some s' → allowedEdge s s') ∧
    (∀ op s s', op ≠ TaskOp.apiUploadFail → isTerminal s → applyOp op s = some s' →
      s = TaskState.completed ∧ s' = TaskState.processing) ∧
    (∀ s, applyOp TaskOp.apiUploadFail s = some TaskState.failed) := by
  decide

/-- Witness for `guarded_ops_follow_allowed_edges` at the STT pickup
transition. -/
theorem guarded_ops_follow_allowed_edges_witness :
    TaskOp.sttStart ≠ TaskOp.apiUploadFail ∧
    applyOp TaskOp.sttStart TaskState.pending = some TaskState.processing ∧
    allowedEdge TaskState.pending TaskState.processing :=
  ⟨by decide, by decide,
    guarded_ops_follow_allowed_edges.1 TaskOp.sttStart TaskState.pending TaskState.processing
      (by decide) (by decide)⟩

/-!
## Claim C4 — in-order streaming and prefix-monotone transcripts
-/

/-- Claim C4: a `transcript_update` is emitted exactly when the completed
chunk's index equals `nextToStream` (out-of-order completions emit nothing),
and along every completion schedule the emitted cumulative transcripts are
prefix-monotone — each payload extends the previous one. -/
theorem stt_streaming_in_order_and_monotone :
    (∀ (st : SttStream) (idx : ℕ) (text : GoStr),
      (chunkComplete st idx text).2.isSome = decide (idx = st.nextToStream)) ∧
    (∀ (n : ℕ) (sched : List (ℕ × GoStr)),
      List.Chain' ExtOf (runStream (initStream n) sched).2) := by
  constructor
  · intro st idx text
    simp only [chunkComplete]
    split_ifs with h
    · simp [h]
    · simp [h]
  · intro n sched
    exact (runStream_chain sched (initStream n) rfl).tail

/-- Witness for `stt_streaming_in_order_and_monotone` at a concrete state:
completing chunk 0 while `nextToStream = 0` emits. -/
theorem stt_streaming_in_order_and_monotone_witness :
    (chunkComplete ⟨[[], []], 0, []⟩ 0 "hi".toList).2.isSome = decide (0 = 0) :=
  stt_streaming_in_order_and_monotone.1 ⟨[[], []], 0, []⟩ 0 "hi".toList

/-!
## Claim C5 — replay buffers
-/

/-- Claim C5 concerns the two replay buffers.  The summary half holds: each
LLM chunk callback publishes the `summary_chunk` event and writes the
accumulated summary to `summary:buffer:{taskId}`.  The transcript half is
false in the code: `notifyTranscriptUpdate` only publishes the event — its
effect list contains no Redis key write at all, so `transcript:buffer` is
never written by the worker (although the gateway's SSE handler reads it for
reconnect replay). -/
theorem transcript_buffer_never_written :
    (∀ taskId content, (notifyTranscriptUpdateEffects taskId content).filter isRedisSet = []) ∧
    (∀ taskId buffer chunk,
      WorkerEffect.redisSetKey ("summary:buffer:" ++ taskId) (buffer ++ chunk) 10 ∈
        summaryChunkCallbackEffects taskId buffer chunk) := by
  refine ⟨fun taskId content => rfl, fun taskId buffer chunk => ?_⟩
  simp [summaryChunkCallbackEffects]

/-!
## Claim C6 — the transcript merge
-/

/-- Claim C6, counterexample: the claimed identity `merge(x, "") = x` fails
because `mergeTranscripts` trims its arguments: `merge(" a ", "") = "a"`. -/
theorem merge_identity_fails_on_untrimmed :
    mergeTranscripts " a ".toList "".toList ≠ " a ".toList := by
  decide

/-- Claim C6, amended: up to trimming, the merge behaves as claimed.  When
either trimmed input is empty the other trimmed input is returned.
Otherwise the result is the trimmed `t1` followed (after one space) by the
words of `t2` with the first `k` dropped and re-joined with single spaces,
where `k` is the greatest overlap length in `[1, min 10 |w1| |w2|]` such
that the last `k` words of `t1` equal the first `k` words of `t2` (`k = 0`
when none matches); when every word of `t2` is dropped, `t1` is returned
without a trailing space. -/
theorem mergeTranscripts_overlap_spec (t1 t2 : GoStr) :
    (trimStr t2 = [] → mergeTranscripts t1 t2 = trimStr t1) ∧
    (trimStr t1 = [] → mergeTranscripts t1 t2 = trimStr t2) ∧
    (trimStr t1 ≠ [] → trimStr t2 ≠ [] →
      ∃ k,
        (k = 0 ∨ (1 ≤ k ∧
          k ≤ min 10 (min (fieldsGo (trimStr t1)).length (fieldsGo (trimStr t2)).length) ∧
          (fieldsGo (trimStr t1)).drop ((fieldsGo (trimStr t1)).length - k) =
            (fieldsGo (trimStr t2)).take k)) ∧
        (∀ j, 1 ≤ j →
          j ≤ min 10 (min (fieldsGo (trimStr t1)).length (fieldsGo (trimStr t2)).length) →
          (fieldsGo (trimStr t1)).drop ((fieldsGo (trimStr t1)).length - j) =
            (fieldsGo (trimStr t2)).take j → j ≤ k) ∧
        mergeTranscripts t1 t2 =
          (if (fieldsGo (trimStr t2)).drop k = [] then trimStr t1
            else trimStr t1 ++ ' ' :: spaceJoin ((fieldsGo (trimStr t2)).drop k))) := by
  refine ⟨?_, ?_, ?_⟩
  · intro h2
    simp only [mergeTranscripts]
    by_cases h1 : trimStr t1 = []
    · rw [if_pos h1, h2, h1]
    · rw [if_neg h1, if_pos h2]
  · intro h1
    simp only [mergeTranscripts]
    rw [if_pos h1]
  · intro h1 h2
    simp only [mergeTranscripts]
    rw [if_neg h1, if_neg h2]
    refine ⟨bestMatch
      (fun i => decide ((fieldsGo (trimStr t1)).drop ((fieldsGo (trimStr t1)).length - i) =
        (fieldsGo (trimStr t2)).take i))
      (min 10 (min (fieldsGo (trimStr t1)).length (fieldsGo (trimStr t2)).length)), ?_, ?_, rfl⟩
    · by_cases hz : bestMatch
        (fun i => decide ((fieldsGo (trimStr t1)).drop ((fieldsGo (trimStr t1)).length - i) =
          (fieldsGo (trimStr t2)).take i))
        (min 10 (min (fieldsGo (trimStr t1)).length (fieldsGo (trimStr t2)).length)) = 0
      · exact Or.inl hz
      · refine Or.inr ⟨Nat.one_le_iff_ne_zero.mpr hz, bestMatch_le _ _, ?_⟩
        exact of_decide_eq_true (bestMatch_pos _ _ hz)
    · intro j hj1 hj2 hj3
      exact bestMatch_greatest _ _ j hj1 hj2 (decide_eq_true hj3)

/-- Witness for `mergeTranscripts_overlap_spec` at a concrete input. -/
theorem mergeTranscripts_overlap_spec_witness :
    trimStr "".toList = [] ∧ mergeTranscripts "a b".toList "".toList = trimStr "a b".toList :=
  ⟨by decide, (mergeTranscripts_overlap_spec "a b".toList "".toList).1 (by decide)⟩

/-!
## Claim C7 — the chunk-boundary walk
-/

/-- Claim C7: for every positive duration and every silence list, the
chunk-boundary walk terminates (with enough fuel it returns chunks rather
than running out) and emits ranges that start at 0, cover `[0, d)`, end
exactly at `d`, absorb any remainder shorter than 5 s (no range ends inside
`(d-5, d)`), and consecutive ranges abut exactly at clean cuts and overlap
by exactly 1.5 s exactly at hard cuts. -/
theorem chunkWalk_terminates_covers (d : ℚ) (silences : List ℚ) (hd : 0 < d) :
    ∃ fuel ranges, chunkWalk fuel d silences 0 = some ranges ∧
      ranges ≠ [] ∧
      (ranges.head?.map fun r => r.1) = some 0 ∧
      (ranges.getLast?.map fun r => r.2.1) = some d ∧
      (∀ r ∈ ranges, r.1 < r.2.1 ∧ r.2.1 ≤ d ∧ (r.2.1 = d ∨ r.2.1 ≤ d - 5)) ∧
      (∀ x : ℚ, 0 ≤ x → x < d → ∃ r ∈ ranges, r.1 ≤ x ∧ x < r.2.1) ∧
      List.Chain' (fun r r' : ℚ × ℚ × Bool => r'.1 = if r.2.2 then r.2.1 - 3/2 else r.2.1)
        ranges := by
  refine ⟨⌈d⌉.toNat, ?_⟩
  have hceil : d ≤ (⌈d⌉.toNat : ℚ) := by
    have h1 : d ≤ (⌈d⌉ : ℚ) := Int.le_ceil d
    have h2 : (0 : ℤ) ≤ ⌈d⌉ := Int.ceil_nonneg (le_of_lt hd)
    rw [← Int.toNat_of_nonneg h2] at h1
    exact_mod_cast h1
  have hfuel : d - 0 ≤ 20 * (⌈d⌉.toNat : ℚ) := by
    have h20 : (⌈d⌉.toNat : ℚ) ≤ 20 * (⌈d⌉.toNat : ℚ) := by
      have := Nat.cast_nonneg (α := ℚ) ⌈d⌉.toNat
      linarith
    linarith
  obtain ⟨ranges, h⟩ := chunkWalk_spec d silences ⌈d⌉.toNat 0 le_rfl hd hfuel
  exact ⟨ranges, h⟩

/-- Witness for `chunkWalk_terminates_covers` at a 10-second file. -/
theorem chunkWalk_terminates_covers_witness :
    (0 : ℚ) < 10 ∧
    ∃ fuel ranges, chunkWalk fuel 10 [] 0 = some ranges ∧
      ranges ≠ [] ∧
      (ranges.head?.map fun r => r.1) = some 0 ∧
      (ranges.getLast?.map fun r => r.2.1) = some 10 ∧
      (∀ r ∈ ranges, r.1 < r.2.1 ∧ r.2.1 ≤ 10 ∧ (r.2.1 = 10 ∨ r.2.1 ≤ 10 - 5)) ∧
      (∀ x : ℚ, 0 ≤ x → x < 10 → ∃ r ∈ ranges, r.1 ≤ x ∧ x < r.2.1) ∧
      List.Chain' (fun r r' : ℚ × ℚ × Bool => r'.1 = if r.2.2 then r.2.1 - 3/2 else r.2.1)
        ranges :=
  ⟨by decide, chunkWalk_terminates_covers 10 [] (by decide)⟩

/-!
## Claim C8 — non-blocking broadcaster fan-out
-/

/-- Claim C8: the fan-out step is a total function (it never blocks), it
appends the payload exactly to the listeners with free buffer capacity and
drops it only for full ones, the outcome for one listener depends only on
that listener's own buffer, and listeners of other task ids are untouched. -/
theorem fanout_nonblocking_isolated :
    (∀ payload (buffers : List (List String)) (i : ℕ),
      (fanOut payload buffers).get? i =
        (buffers.get? i).map (fun b => if b.length < 16 then b ++ [payload] else b)) ∧
    (∀ payload (buffers buffers' : List (List String)) (i : ℕ),
      buffers.get? i = buffers'.get? i →
      (fanOut payload buffers).get? i = (fanOut payload buffers').get? i) ∧
    (∀ registry channel payload id, id ≠ taskIdOfChannel channel →
      broadcastStep registry channel payload id = registry id) := by
  refine ⟨fun payload buffers i => ?_, fun payload buffers buffers' i h => ?_,
    fun registry channel payload id hne => ?_⟩
  · simp [fanOut, List.get?_map]
  · have h' : buffers[i]? = buffers'[i]? := by
      simpa [List.get?_eq_getElem?] using h
    simp [fanOut, List.get?_map, h']
  · simp [broadcastStep, hne]

/-- Witness for `fanout_nonblocking_isolated`: one listener's delivery is
unaffected by a sibling's buffer. -/
theorem fanout_nonblocking_isolated_witness :
    ([["a"]] : List (List String)).get? 0 = ([["a"], ["slow"]] : List (List String)).get? 0 ∧
    (fanOut "e" [["a"]]).get? 0 = (fanOut "e" [["a"], ["slow"]]).get? 0 :=
  ⟨by decide, fanout_nonblocking_isolated.2.1 "e" [["a"]] [["a"], ["slow"]] 0 (by decide)⟩

/-!
## Claim C9 — result-row column preservation
-/

/-- Claim C9, counterexample: the claim asserts that in every result write an
empty supplied value leaves the column unchanged.  `SaveTranscript`
overwrites the transcript column unconditionally, so supplying the empty
string replaces a previously stored transcript with the empty string. -/
theorem saveTranscript_overwrites_on_empty :
    saveTranscript (some (some "hello", some "sum")) "" = some (some "", some "sum") ∧
    (some "" : Option String) ≠ some "hello" := by
  exact ⟨rfl, by decide⟩

/-- Claim C9, amended: the `UpdateTaskStatus` upsert preserves a column
whenever its supplied value is empty (in both directions), and
`SaveTranscript` always preserves the summary column but overwrites the
transcript column with whatever is supplied, including the empty string. -/
theorem result_writes_preserve_columns :
    (∀ t0 s0 s, updateTaskStatusResult (some (t0, s0)) "" s =
      some (t0, if s ≠ "" then some s else s0)) ∧
    (∀ t0 s0 t, updateTaskStatusResult (some (t0, s0)) t "" =
      some ((if t ≠ "" then some t else t0), s0)) ∧
    (∀ t0 s0 t, saveTranscript (some (t0, s0)) t = some (some t, s0)) := by
  refine ⟨fun t0 s0 s => ?_, fun t0 s0 t => ?_, fun t0 s0 t => rfl⟩
  · by_cases hs : s = ""
    · simp [updateTaskStatusResult, upsertResultRow, hs]
    · simp [updateTaskStatusResult, upsertResultRow, hs]
  · by_cases ht : t = ""
    · simp [updateTaskStatusResult, upsertResultRow, ht]
    · simp [updateTaskStatusResult, upsertResultRow, ht]

/-- Witness for `result_writes_preserve_columns`: saving a new transcript
keeps the stored summary. -/
theorem result_writes_preserve_columns_witness :
    saveTranscript (some (some "t", some "s")) "x" = some (some "x", some "s") :=
  result_writes_preserve_columns.2.2 (some "t") (some "s") "x"

/-!
## Claim C10 — the identity middleware overwrites X-User-Id
-/

/-- Claim C10: `UserIdentity` always sets the forwarded `X-User-Id` header
to the cookie-derived identity (or the fresh UUID when no usable cookie is
present), overwriting any client-supplied value; hence two requests that
differ only in the inbound `X-User-Id` header are forwarded with identical
headers.  The fresh UUID is an explicit parameter (the same randomness is
compared across the two runs). -/
theorem user_identity_overwrites_header :
    (∀ cookie freshUuid hs,
      userIdentity cookie freshUuid hs "X-User-Id" = some (resolveUserId cookie freshUuid)) ∧
    (∀ cookie freshUuid hs hs', (∀ k, k ≠ "X-User-Id" → hs k = hs' k) →
      ∀ k, userIdentity cookie freshUuid hs k = userIdentity cookie freshUuid hs' k) := by
  constructor
  · intro cookie freshUuid hs
    simp [userIdentity, setHeader]
  · intro cookie freshUuid hs hs' h k
    by_cases hk : k = "X-User-Id"
    · simp [userIdentity, setHeader, hk]
    · simp [userIdentity, setHeader, hk, h k hk]

/-- Witness for `user_identity_overwrites_header`: two requests differing
only in the client-supplied X-User-Id header are forwarded identically. -/
theorem user_identity_overwrites_header_witness :
    (∀ k, k ≠ "X-User-Id" →
      (fun k' => if k' = "X-User-Id" then some "attacker" else (none : Option String)) k =
      (fun k' => if k' = "X-User-Id" then some "other" else (none : Option String)) k) ∧
    (∀ k, userIdentity (some "u1") "fresh"
        (fun k' => if k' = "X-User-Id" then some "attacker" else (none : Option String)) k =
      userIdentity (some "u1") "fresh"
        (fun k' => if k' = "X-User-Id" then some "other" else (none : Option String)) k) :=
  ⟨fun k hk => by simp [hk],
    user_identity_overwrites_header.2 (some "u1") "fresh" _ _ (fun k hk => by simp [hk])⟩

/-!
## Concrete evaluations
-/

/-- Sanity evaluation: a 10-second file yields the single chunk `[0, 10)`
with no overlap flag. -/
theorem chunkWalk_eval_short : chunkWalk 1 10 [] 0 = some [(0, 10, false)] := by
  norm_num [chunkWalk, chunkNextStart, chunkIsClean, chunkActualEnd, chunkCut, chunkCutWith,
    chunkTargetEnd, bestSilenceIn, silStep]

/-- Sanity evaluation: a 70-second file without silences is hard-cut at 30 s
and 58.5 s with 1.5 s overlaps, and the 11.5-second tail forms the last
chunk ending exactly at 70. -/
theorem chunkWalk_eval_hard_cuts :
    chunkWalk 4 70 [] 0 = some [(0, 30, true), (28.5, 58.5, true), (57, 70, false)] := by
  norm_num [chunkWalk, chunkNextStart, chunkIsClean, chunkActualEnd, chunkCut, chunkCutWith,
    chunkTargetEnd, bestSilenceIn, silStep]

/-- Sanity evaluation: the overlap-merge scenario of the specification —
the 1.5 s overlap duplicates two words, which the merge removes. -/
theorem mergeTranscripts_eval_overlap :
    mergeTranscripts "the quick brown fox jumps over".toList "jumps over the lazy dog".toList
      = "the quick brown fox jumps over the lazy dog".toList := by
  decide
